import Mathlib

/-!
Shallow embedding of the redactable PII detection/redaction core
(`src/simple_pii_detector.py` and `src/simple_redaction_engine.py`).

Conventions of the embedding:
* Python dicts with fixed keys become Lean structures.
* Python floats (confidence scores and thresholds) become `ℚ`; all the
  confidences occurring in the program are short decimal literals whose
  comparisons agree between binary floats and rationals.
* Python strings are Lean `String`s; Python `len`/slicing act on code
  points, matching Lean `String.length` / char-list operations.
* The regex engine (`re.finditer`) is an external library, not code of
  this repository; it is abstracted as a parameter
  `finditer : String → String → List (Nat × Nat)` mapping a pattern
  source string and a text to the list of match spans `(start, end)`.
  `match.group()` is translated as the slice `text[start:end]`, which is
  the defining property of a regex match span.
* Fallible code (Python `KeyError` on a missing dict key) returns
  `Except String`.
* The wall clock (`datetime.now().isoformat()`) is passed in explicitly
  as the `now : String` argument.
-/

deriving instance DecidableEq for Except

namespace Redactable

/-- One entry of the detector's pattern catalog
(`SimplePIIDetector.__init__`, `self.patterns`). -/
structure PIIPatternRule where
  type : String
  pattern : String
  confidence : ℚ
deriving DecidableEq, Repr

/-- The fixed pattern catalog from `SimplePIIDetector.__init__`. -/
def patterns : List PIIPatternRule := [
  ⟨"email", "\\b[A-Za-z0-9._%+-]+@[A-Za-z0-9.-]+\\.[A-Z|a-z]\x7b2,\x7d\\b", mkRat 95 100⟩,
  ⟨"phone", "(?:\\+?1[-.\\s]?)?\\(?([0-9]\x7b3\x7d)\\)?[-.\\s]?([0-9]\x7b3\x7d)[-.\\s]?([0-9]\x7b4\x7d)", mkRat 90 100⟩,
  ⟨"ssn", "\\b\\d\x7b3\x7d-\\d\x7b2\x7d-\\d\x7b4\x7d\\b", mkRat 98 100⟩,
  ⟨"credit_card", "\\b\\d\x7b4\x7d[-\\s]?\\d\x7b4\x7d[-\\s]?\\d\x7b4\x7d[-\\s]?\\d\x7b4\x7d\\b", mkRat 85 100⟩,
  ⟨"zip_code", "\\b\\d\x7b5\x7d(?:-\\d\x7b4\x7d)?\\b", mkRat 70 100⟩,
  ⟨"date_of_birth", "\\b(?:0[1-9]|1[0-2])[/-](?:0[1-9]|[12]\\d|3[01])[/-](?:19|20)\\d\x7b2\x7d\\b", mkRat 60 100⟩,
  ⟨"name", "\\b[A-Z][a-z]+ [A-Z][a-z]+(?:\\s[A-Z][a-z]+)?\\b", mkRat 50 100⟩]

/-- A detection dict as built in `SimplePIIDetector.detect_pii`
(`end` is a Lean keyword, so the field is named `end_`). -/
structure Detection where
  text : String
  type : String
  confidence : ℚ
  start : Nat
  end_ : Nat
deriving DecidableEq, Repr

/-- Python slice `s[a:b]` for `0 ≤ a`, `0 ≤ b` (clamping semantics). -/
def strSlice (s : String) (a b : Nat) : String :=
  String.mk ((s.data.take b).drop a)

/-- The overlap test from `_remove_overlaps`:
`detection['start'] < existing['end'] and detection['end'] > existing['start']`. -/
def overlapsB (detection existing : Detection) : Bool :=
  decide (detection.start < existing.end_ ∧ detection.end_ > existing.start)

/-- Two detections occupy disjoint `[start, end)` ranges. -/
def NonOverlap (d1 d2 : Detection) : Prop :=
  d1.end_ ≤ d2.start ∨ d2.end_ ≤ d1.start

/-- Sort key relation used by `detections.sort(key=lambda x: x['start'])`. -/
def leStart (a b : Detection) : Prop := a.start ≤ b.start

instance : DecidableRel leStart := fun a b => Nat.decLe a.start b.start

instance : IsTotal Detection leStart := ⟨fun a b => Nat.le_total a.start b.start⟩

instance : IsTrans Detection leStart := ⟨fun _ _ _ h₁ h₂ => Nat.le_trans h₁ h₂⟩

/-- Python's `list.sort(key=lambda x: x['start'])` (Timsort) is a stable
ascending sort by start offset; insertion sort with `leStart` has the same
stable behaviour. -/
def sortByStart (detections : List Detection) : List Detection :=
  List.insertionSort leStart detections

/-- One iteration of the outer loop of `SimplePIIDetector._remove_overlaps`:
scan `filtered` for the first overlapping entry (the inner `for ... break`),
evict-and-append when the candidate's confidence is strictly higher, drop the
candidate otherwise, and append the candidate when nothing overlaps.
`List.erase` removes the first equal element, as Python `list.remove` does. -/
def removeOverlapsStep (filtered : List Detection) (detection : Detection) :
    List Detection :=
  match filtered.find? (fun existing => overlapsB detection existing) with
  | none => filtered ++ [detection]
  | some existing =>
    if detection.confidence > existing.confidence then
      filtered.erase existing ++ [detection]
    else
      filtered

/-- `SimplePIIDetector._remove_overlaps` (the `if not detections` early
return coincides with the general path on the empty list). -/
def remove_overlaps (detections : List Detection) : List Detection :=
  (sortByStart detections).foldl removeOverlapsStep []

/-- Modelled from the spec (§4.1 step 3), for comparison with
`remove_overlaps`: walk the candidates sorted ascending by start; a candidate
overlapping exactly one accepted detection with strictly higher confidence
evicts it and is accepted, an overlapping candidate without strictly higher
confidence is discarded, and a non-overlapping candidate is accepted
outright. -/
def removeOverlapsSpecStep (accepted : List Detection) (cand : Detection) :
    List Detection :=
  match accepted.filter (fun existing => overlapsB cand existing) with
  | [] => accepted ++ [cand]
  | [e] =>
    if cand.confidence > e.confidence then
      accepted.erase e ++ [cand]
    else
      accepted
  | _ => accepted

/-- Modelled from the spec (§4.1 step 3): the whole overlap-resolution pass. -/
def remove_overlaps_spec (detections : List Detection) : List Detection :=
  (sortByStart detections).foldl removeOverlapsSpecStep []

/-- Per-type counters with Python dict semantics: an existing key is bumped
in place, a new key is appended (`counts.get(t, 0) + 1` plus insertion
order). -/
def bumpCount : List (String × Nat) → String → List (String × Nat)
  | [], k => [(k, 1)]
  | (k', n) :: rest, k =>
    if k' = k then (k', n + 1) :: rest else (k', n) :: bumpCount rest k

/-- The `by_type` dict of `SimplePIIDetector._generate_summary`. -/
def detectionsByType (detections : List Detection) : List (String × Nat) :=
  detections.foldl (fun c d => bumpCount c d.type) []

/-- The summary dict of `SimplePIIDetector._generate_summary`. -/
structure DetectionSummary where
  total_detections : Nat
  high_confidence : Nat
  by_type : List (String × Nat)
deriving DecidableEq, Repr

/-- `SimplePIIDetector._generate_summary`. -/
def generate_summary (detections : List Detection) : DetectionSummary :=
  { total_detections := detections.length
    high_confidence := (detections.filter (fun d => decide (d.confidence ≥ mkRat 8 10))).length
    by_type := detectionsByType detections }

/-- Return value of `SimplePIIDetector.detect_pii`. -/
structure DetectResult where
  detections : List Detection
  summary : DetectionSummary
deriving DecidableEq, Repr

/-- The raw detections of `SimplePIIDetector.detect_pii` before overlap
resolution: one per regex match of each catalog pattern, carrying the rule's
type and confidence. `finditer pat text` abstracts
`re.finditer(pat, text, re.IGNORECASE)` as the list of `(start, end)` match
spans, and `match.group()` is the corresponding slice of `text`. -/
def rawDetections (finditer : String → String → List (Nat × Nat))
    (text : String) : List Detection :=
  patterns.flatMap fun config =>
    (finditer config.pattern text).map fun m =>
      { text := strSlice text m.1 m.2
        type := config.type
        confidence := config.confidence
        start := m.1
        end_ := m.2 }

/-- `SimplePIIDetector.detect_pii`, parameterized by the regex engine. -/
def detect_pii (finditer : String → String → List (Nat × Nat))
    (text : String) : DetectResult :=
  let detections := remove_overlaps (rawDetections finditer text)
  { detections := detections
    summary := generate_summary detections }

/-- A caller-supplied detection record as consumed by
`SimpleRedactionEngine.apply_redactions`: a dict that may lack any of the
keys `text`, `type`, `confidence`, `start`, `end`. -/
structure DetRecord where
  text : Option String
  type : Option String
  confidence : Option ℚ
  start : Option Nat
  end_ : Option Nat
deriving DecidableEq, Repr

/-- `detection.get('confidence', 0)`. -/
def confD (d : DetRecord) : ℚ := d.confidence.getD 0

/-- `detection.get('start', 0)`. -/
def startD (d : DetRecord) : Nat := d.start.getD 0

/-- `detection.get('end', len(detection['text']))` for a record whose
`text` key is present (`detection['text']` raises otherwise): note the
source defaults `end` to `len(text)`, with no `start +` term. -/
def endD (d : DetRecord) : Nat := d.end_.getD (d.text.getD "").length

/-- The redaction-options dict (`style`, `preserve_length`,
`confidence_threshold`), modelled with all three keys present; the
`options.get(key, default)` accesses in the source read these fields. -/
structure RedactionOptions where
  style : String
  preserve_length : Bool
  confidence_threshold : ℚ
deriving DecidableEq, Repr

/-- The default options substituted by `apply_redactions` when
`redaction_options` is falsy. -/
def defaultOptions : RedactionOptions :=
  { style := "black_bars", preserve_length := true, confidence_threshold := 0 }

/-- `self.type_labels` of `SimpleRedactionEngine.__init__`. -/
def type_labels : List (String × String) := [
  ("name", "[NAME_REDACTED]"),
  ("email", "[EMAIL_REDACTED]"),
  ("phone", "[PHONE_REDACTED]"),
  ("ssn", "[SSN_REDACTED]"),
  ("credit_card", "[CARD_REDACTED]"),
  ("zip_code", "[ZIP_REDACTED]"),
  ("date_of_birth", "[DOB_REDACTED]")]

/-- `self.type_labels.get(pii_type, REDACTED)`. -/
def labelOf (pii_type : String) : String :=
  ((type_labels.find? (fun p => p.1 == pii_type)).map Prod.snd).getD "[REDACTED]"

/-- `self.redaction_styles.get(style, black bar char)` restricted to the
character entries; the `labels` key of that dict is never read, because
`_generate_replacement` returns before the lookup when `style == 'labels'`. -/
def redaction_char (style : String) : Char :=
  if style = "black_bars" then '█'
  else if style = "asterisks" then '*'
  else '█'

/-- `SimpleRedactionEngine._generate_replacement`. -/
def generate_replacement (original_text : String) (pii_type : String)
    (options : RedactionOptions) : String :=
  let style := options.style
  let preserve_length := options.preserve_length
  if style = "labels" then
    labelOf pii_type
  else if preserve_length then
    String.mk (List.replicate original_text.length (redaction_char style))
  else if style = "black_bars" then
    "████████"
  else if style = "asterisks" then
    "********"
  else
    "[REDACTED]"

/-- One entry of `redacted_items`. -/
structure RedactedItem where
  original_text : String
  type : String
  confidence : ℚ
  pos_start : Nat
  pos_end : Nat
  replacement : String
deriving DecidableEq, Repr

/-- The `by_type` dict of `_count_by_type`. -/
def count_by_type (redacted_items : List RedactedItem) : List (String × Nat) :=
  redacted_items.foldl (fun c it => bumpCount c it.type) []

/-- The fixed-key dict built by `_count_by_confidence`. -/
structure ConfCounts where
  high : Nat
  medium : Nat
  low : Nat
deriving DecidableEq, Repr

/-- `SimpleRedactionEngine._count_by_confidence`. -/
def count_by_confidence (redacted_items : List RedactedItem) : ConfCounts :=
  redacted_items.foldl
    (fun counts item =>
      if item.confidence ≥ mkRat 8 10 then { counts with high := counts.high + 1 }
      else if item.confidence ≥ mkRat 5 10 then { counts with medium := counts.medium + 1 }
      else { counts with low := counts.low + 1 })
    ⟨0, 0, 0⟩

/-- The summary part of the audit trail. -/
structure AuditSummary where
  total_redactions : Nat
  by_type : List (String × Nat)
  by_confidence : ConfCounts
deriving DecidableEq, Repr

/-- The audit-trail dict of `SimpleRedactionEngine._generate_audit_trail`. -/
structure AuditTrail where
  timestamp : String
  redaction_options : RedactionOptions
  original_length : Nat
  redacted_length : Nat
  redacted_items : List RedactedItem
  summary : AuditSummary
deriving DecidableEq, Repr

/-- `SimpleRedactionEngine._generate_audit_trail`; the
`datetime.now().isoformat()` timestamp is the explicit `now` argument. -/
def generate_audit_trail (now : String) (original_text redacted_text : String)
    (redacted_items : List RedactedItem)
    (redaction_options : RedactionOptions) : AuditTrail :=
  { timestamp := now
    redaction_options := redaction_options
    original_length := original_text.length
    redacted_length := redacted_text.length
    redacted_items := redacted_items
    summary :=
      { total_redactions := redacted_items.length
        by_type := count_by_type redacted_items
        by_confidence := count_by_confidence redacted_items } }

/-- The summary field of the `apply_redactions` return value. -/
structure RedactionSummary where
  total_redactions : Nat
  by_type : List (String × Nat)
deriving DecidableEq, Repr

/-- The `apply_redactions` return value. -/
structure RedactionResult where
  redacted_text : String
  redacted_items : List RedactedItem
  audit_trail : AuditTrail
  summary : RedactionSummary
deriving DecidableEq, Repr

/-- Python splice `text[:start] + replacement + text[end:]`. -/
def spliceStr (s : String) (start end_ : Nat) (replacement : String) : String :=
  String.mk (s.data.take start ++ replacement.data ++ s.data.drop end_)

/-- Sort key relation of
`filtered_detections.sort(key=lambda x: x.get('start', 0), reverse=True)`. -/
def geStart (a b : DetRecord) : Prop := startD b ≤ startD a

instance : DecidableRel geStart := fun a b => Nat.decLe (startD b) (startD a)

instance : IsTotal DetRecord geStart := ⟨fun a b => Nat.le_total (startD b) (startD a)⟩

instance : IsTrans DetRecord geStart := ⟨fun _ _ _ h₁ h₂ => Nat.le_trans h₂ h₁⟩

/-- Python's stable descending sort by start offset (`reverse=True` keeps
equal keys in their original order). -/
def sortDescByStart (detections : List DetRecord) : List DetRecord :=
  List.insertionSort geStart detections

/-- The `redacted_items` entry recorded for one processed detection
(`apply_redactions` loop body, with the field defaults of the source). -/
def itemOf (d : DetRecord) (options : RedactionOptions) : RedactedItem :=
  { original_text := d.text.getD ""
    type := d.type.getD ""
    confidence := confD d
    pos_start := startD d
    pos_end := endD d
    replacement := generate_replacement (d.text.getD "") (d.type.getD "") options }

/-- One iteration of the `for detection in filtered_detections` loop of
`apply_redactions`: the subscript accesses `detection['text']` (evaluated
inside the `end` default, eagerly) and `detection['type']` raise `KeyError`
when the key is missing; otherwise the replacement is spliced into the
working text and a `RedactedItem` is recorded. -/
def redactStep (options : RedactionOptions)
    (st : String × List RedactedItem) (d : DetRecord) :
    Except String (String × List RedactedItem) :=
  if d.text.isNone then
    Except.error "KeyError: text"
  else if d.type.isNone then
    Except.error "KeyError: type"
  else
    Except.ok
      (spliceStr st.1 (startD d) (endD d) (itemOf d options).replacement,
       st.2 ++ [itemOf d options])

/-- The whole redaction loop of `apply_redactions`, threading
`(redacted_text, redacted_items)` and propagating a `KeyError`. -/
def redactLoop (options : RedactionOptions) :
    List DetRecord → String × List RedactedItem →
    Except String (String × List RedactedItem)
  | [], st => Except.ok st
  | d :: rest, st =>
    match redactStep options st d with
    | Except.error e => Except.error e
    | Except.ok st' => redactLoop options rest st'

/-- Lines 49-81 of `apply_redactions`: confidence filter, descending sort,
and the splice loop. -/
def redactCore (text : String) (detections : List DetRecord)
    (options : RedactionOptions) :
    Except String (String × List RedactedItem) :=
  let filtered_detections :=
    detections.filter (fun d => decide (confD d ≥ options.confidence_threshold))
  redactLoop options (sortDescByStart filtered_detections) (text, [])

/-- Lines 83-99 of `apply_redactions`: audit trail and summary assembly. -/
def assembleResult (now : String) (text : String)
    (options : RedactionOptions) (st : String × List RedactedItem) :
    RedactionResult :=
  { redacted_text := st.1
    redacted_items := st.2
    audit_trail := generate_audit_trail now text st.1 st.2 options
    summary :=
      { total_redactions := st.2.length
        by_type := count_by_type st.2 } }

/-- `SimpleRedactionEngine.apply_redactions`. A falsy `redaction_options`
argument (Python `None` or the empty dict, both of which behave as the
documented defaults) is `none` here. -/
def apply_redactions (now : String) (text : String)
    (detections : List DetRecord)
    (redaction_options : Option RedactionOptions) :
    Except String RedactionResult :=
  let options := redaction_options.getD defaultOptions
  (redactCore text detections options).map (assembleResult now text options)

end Redactable

namespace Redactable

/-! ### Properties of the overlap-resolution pass -/

theorem overlapsB_eq_false_iff {d e : Detection} :
    overlapsB d e = false ↔ NonOverlap d e := by
  simp only [overlapsB, NonOverlap, decide_eq_false_iff_not, not_and, not_lt]
  omega

theorem nonOverlap_symm {d e : Detection} (h : NonOverlap d e) : NonOverlap e d :=
  h.symm.imp id id

/-- Step unfolding: no accepted detection overlaps the candidate. -/
theorem removeOverlapsStep_none {acc : List Detection} {d : Detection}
    (h : acc.find? (fun existing => overlapsB d existing) = none) :
    removeOverlapsStep acc d = acc ++ [d] := by
  unfold removeOverlapsStep
  rw [h]

/-- Step unfolding: the first overlapping accepted detection has strictly
lower confidence and is evicted. -/
theorem removeOverlapsStep_evict {acc : List Detection} {d e : Detection}
    (h : acc.find? (fun existing => overlapsB d existing) = some e)
    (hc : d.confidence > e.confidence) :
    removeOverlapsStep acc d = acc.erase e ++ [d] := by
  unfold removeOverlapsStep
  rw [h]
  exact if_pos hc

/-- Step unfolding: the candidate overlaps an accepted detection without
strictly higher confidence and is discarded. -/
theorem removeOverlapsStep_keep {acc : List Detection} {d e : Detection}
    (h : acc.find? (fun existing => overlapsB d existing) = some e)
    (hc : ¬d.confidence > e.confidence) :
    removeOverlapsStep acc d = acc := by
  unfold removeOverlapsStep
  rw [h]
  exact if_neg hc

/-- Everything the step keeps is either the candidate or an already-accepted
detection. -/
theorem mem_removeOverlapsStep {acc : List Detection} {d x : Detection}
    (hx : x ∈ removeOverlapsStep acc d) : x = d ∨ x ∈ acc := by
  cases hfind : acc.find? (fun existing => overlapsB d existing) with
  | none =>
    rw [removeOverlapsStep_none hfind] at hx
    rcases List.mem_append.1 hx with h | h
    · exact Or.inr h
    · exact Or.inl (List.mem_singleton.1 h)
  | some e =>
    by_cases hc : d.confidence > e.confidence
    · rw [removeOverlapsStep_evict hfind hc] at hx
      rcases List.mem_append.1 hx with h | h
      · exact Or.inr (List.mem_of_mem_erase h)
      · exact Or.inl (List.mem_singleton.1 h)
    · rw [removeOverlapsStep_keep hfind hc] at hx
      exact Or.inr hx

/-- A candidate whose start is at least every accepted start cannot overlap
two (occurrences of) accepted detections: the accepted ones are mutually
disjoint and both end strictly beyond the candidate's start. -/
theorem no_two_overlaps {acc : List Detection} {d a b : Detection}
    (hpw : acc.Pairwise NonOverlap)
    (hstart : ∀ x ∈ acc, x.start ≤ d.start)
    (hsub : List.Sublist [a, b] acc)
    (ha : overlapsB d a = true) (hb : overlapsB d b = true) : False := by
  have hab : NonOverlap a b := by
    have := hpw.sublist hsub
    exact (List.pairwise_cons.1 this).1 b (List.mem_singleton.2 rfl)
  have hamem : a ∈ acc := hsub.subset (by simp)
  have hbmem : b ∈ acc := hsub.subset (by simp)
  have h1 := hstart a hamem
  have h2 := hstart b hbmem
  simp only [overlapsB, decide_eq_true_eq] at ha hb
  rcases hab with h | h <;> omega

/-- After the first overlapping accepted detection is removed, the candidate
overlaps nothing that remains. -/
theorem erase_no_overlap {acc : List Detection} {d e : Detection}
    (hpw : acc.Pairwise NonOverlap)
    (hstart : ∀ x ∈ acc, x.start ≤ d.start)
    (hfind : acc.find? (fun existing => overlapsB d existing) = some e) :
    ∀ a ∈ acc.erase e, overlapsB d a = false := by
  intro a hmem
  have he_mem : e ∈ acc := List.mem_of_find?_eq_some hfind
  have he_ov : overlapsB d e = true := List.find?_some hfind
  by_contra hcon
  have ha_ov : overlapsB d a = true := by
    cases h : overlapsB d a with
    | false => exact absurd h hcon
    | true => rfl
  obtain ⟨l₁, l₂, -, hdec, herase⟩ := List.exists_erase_eq he_mem
  rw [herase] at hmem
  rcases List.mem_append.1 hmem with h | h
  · have hsub : List.Sublist [a, e] acc := by
      rw [hdec]
      exact List.Sublist.append (List.singleton_sublist.2 h)
        (List.Sublist.cons₂ e (List.nil_sublist l₂))
    exact no_two_overlaps hpw hstart hsub ha_ov he_ov
  · have hsub : List.Sublist [e, a] acc := by
      rw [hdec]
      have h2 : List.Sublist [e, a] (e :: l₂) :=
        List.Sublist.cons₂ e (List.singleton_sublist.2 h)
      simpa using List.Sublist.append (List.nil_sublist l₁) h2
    exact no_two_overlaps hpw hstart hsub he_ov ha_ov

/-- One step of `_remove_overlaps` keeps the accepted set mutually
non-overlapping. -/
theorem removeOverlapsStep_pairwise {acc : List Detection} {d : Detection}
    (hpw : acc.Pairwise NonOverlap)
    (hstart : ∀ x ∈ acc, x.start ≤ d.start) :
    (removeOverlapsStep acc d).Pairwise NonOverlap := by
  cases hfind : acc.find? (fun existing => overlapsB d existing) with
  | none =>
    rw [removeOverlapsStep_none hfind, List.pairwise_append]
    refine ⟨hpw, List.pairwise_singleton _ _, ?_⟩
    intro x hx y hy
    rw [List.mem_singleton] at hy
    subst hy
    have hnov := (List.find?_eq_none.1 hfind) x hx
    simp only [Bool.not_eq_true] at hnov
    exact nonOverlap_symm (overlapsB_eq_false_iff.1 hnov)
  | some e =>
    by_cases hc : d.confidence > e.confidence
    · rw [removeOverlapsStep_evict hfind hc, List.pairwise_append]
      refine ⟨hpw.sublist (List.erase_sublist e acc), List.pairwise_singleton _ _, ?_⟩
      intro x hx y hy
      rw [List.mem_singleton] at hy
      subst hy
      exact nonOverlap_symm (overlapsB_eq_false_iff.1 (erase_no_overlap hpw hstart hfind x hx))
    · rw [removeOverlapsStep_keep hfind hc]
      exact hpw

/-- Invariant of the whole accepted-set fold: processing candidates in
ascending start order keeps the accepted set mutually non-overlapping. -/
theorem foldl_removeOverlapsStep_pairwise :
    ∀ (l acc : List Detection), l.Sorted leStart →
      acc.Pairwise NonOverlap →
      (∀ x ∈ acc, ∀ r ∈ l, x.start ≤ r.start) →
      (l.foldl removeOverlapsStep acc).Pairwise NonOverlap := by
  intro l
  induction l with
  | nil => intro acc _ hpw _; exact hpw
  | cons d rest ih =>
    intro acc hsorted hpw hstart
    rw [List.foldl_cons]
    have hd := (List.sorted_cons.1 hsorted).1
    have hrest := (List.sorted_cons.1 hsorted).2
    have hstartd : ∀ x ∈ acc, x.start ≤ d.start := fun x hx =>
      hstart x hx d (List.mem_cons_self d rest)
    refine ih _ hrest (removeOverlapsStep_pairwise hpw hstartd) ?_
    intro x hx r hr
    rcases mem_removeOverlapsStep hx with h | h
    · subst h; exact hd r hr
    · exact hstart x h r (List.mem_cons_of_mem d hr)

/-- Every detection surviving the fold was an accepted candidate. -/
theorem mem_foldl_removeOverlapsStep :
    ∀ {l acc : List Detection} {x : Detection},
      x ∈ l.foldl removeOverlapsStep acc → x ∈ acc ∨ x ∈ l := by
  intro l
  induction l with
  | nil => intro acc x hx; exact Or.inl hx
  | cons d rest ih =>
    intro acc x hx
    rw [List.foldl_cons] at hx
    rcases ih hx with h | h
    · rcases mem_removeOverlapsStep h with h' | h'
      · exact Or.inr (h' ▸ List.mem_cons_self d rest)
      · exact Or.inl h'
    · exact Or.inr (List.mem_cons_of_mem d h)

/-- The output of `_remove_overlaps` is a subset of its input. -/
theorem mem_remove_overlaps {l : List Detection} {x : Detection}
    (hx : x ∈ remove_overlaps l) : x ∈ l := by
  unfold remove_overlaps at hx
  rcases mem_foldl_removeOverlapsStep hx with h | h
  · simp at h
  · exact (List.perm_insertionSort leStart l).subset h

/-- `_remove_overlaps` always returns a mutually non-overlapping list. -/
theorem remove_overlaps_pairwise (l : List Detection) :
    (remove_overlaps l).Pairwise NonOverlap := by
  unfold remove_overlaps
  refine foldl_removeOverlapsStep_pairwise _ [] ?_ List.Pairwise.nil ?_
  · exact List.sorted_insertionSort leStart l
  · intro x hx; simp at hx

/-- Under the fold invariant the candidate overlaps exactly one accepted
entry, so filtering the accepted list for overlaps yields exactly the first
(and only) overlapping detection. -/
theorem filter_overlaps_eq_singleton {acc : List Detection} {d e : Detection}
    (hpw : acc.Pairwise NonOverlap)
    (hstart : ∀ x ∈ acc, x.start ≤ d.start)
    (hfind : acc.find? (fun existing => overlapsB d existing) = some e) :
    acc.filter (fun existing => overlapsB d existing) = [e] := by
  have he_mem : e ∈ acc := List.mem_of_find?_eq_some hfind
  have he_ov : overlapsB d e = true := List.find?_some hfind
  have he_f : e ∈ acc.filter (fun existing => overlapsB d existing) :=
    List.mem_filter.2 ⟨he_mem, he_ov⟩
  cases hfil : acc.filter (fun existing => overlapsB d existing) with
  | nil =>
    rw [hfil] at he_f
    exact absurd he_f (List.not_mem_nil e)
  | cons a t =>
    cases t with
    | nil =>
      rw [hfil, List.mem_singleton] at he_f
      rw [he_f]
    | cons b t' =>
      exfalso
      have hsubfil : List.Sublist [a, b] (a :: b :: t') :=
        List.Sublist.cons₂ a (List.Sublist.cons₂ b (List.nil_sublist t'))
      have hfsub : List.Sublist (acc.filter (fun existing => overlapsB d existing)) acc :=
        List.filter_sublist acc
      rw [hfil] at hfsub
      have hamem : a ∈ acc.filter (fun existing => overlapsB d existing) := by
        rw [hfil]; simp
      have hbmem : b ∈ acc.filter (fun existing => overlapsB d existing) := by
        rw [hfil]; simp
      exact no_two_overlaps hpw hstart (hsubfil.trans hfsub)
        (List.of_mem_filter hamem) (List.of_mem_filter hbmem)

/-- Under the fold invariant, the implementation's step (first-overlap scan
with break) agrees with the spec's step (decide on the full set of
overlapping accepted detections). -/
theorem step_eq_specStep {acc : List Detection} {d : Detection}
    (hpw : acc.Pairwise NonOverlap)
    (hstart : ∀ x ∈ acc, x.start ≤ d.start) :
    removeOverlapsStep acc d = removeOverlapsSpecStep acc d := by
  cases hfind : acc.find? (fun existing => overlapsB d existing) with
  | none =>
    have hfil : acc.filter (fun existing => overlapsB d existing) = [] := by
      rw [List.filter_eq_nil_iff]
      intro a ha
      have hnone := List.find?_eq_none.1 hfind a ha
      simpa using hnone
    rw [removeOverlapsStep_none hfind]
    unfold removeOverlapsSpecStep
    rw [hfil]
  | some e =>
    have hfil := filter_overlaps_eq_singleton hpw hstart hfind
    unfold removeOverlapsSpecStep
    rw [hfil]
    show removeOverlapsStep acc d =
      if d.confidence > e.confidence then acc.erase e ++ [d] else acc
    by_cases hc : d.confidence > e.confidence
    · rw [removeOverlapsStep_evict hfind hc, if_pos hc]
    · rw [removeOverlapsStep_keep hfind hc, if_neg hc]

/-- The two folds agree from any invariant-satisfying accumulator. -/
theorem foldl_step_eq_spec :
    ∀ (l acc : List Detection), l.Sorted leStart →
      acc.Pairwise NonOverlap →
      (∀ x ∈ acc, ∀ r ∈ l, x.start ≤ r.start) →
      l.foldl removeOverlapsStep acc = l.foldl removeOverlapsSpecStep acc := by
  intro l
  induction l with
  | nil => intro acc _ _ _; rfl
  | cons d rest ih =>
    intro acc hsorted hpw hstart
    have hd := (List.sorted_cons.1 hsorted).1
    have hrest := (List.sorted_cons.1 hsorted).2
    have hstartd : ∀ x ∈ acc, x.start ≤ d.start := fun x hx =>
      hstart x hx d (List.mem_cons_self d rest)
    rw [List.foldl_cons, List.foldl_cons, ← step_eq_specStep hpw hstartd]
    refine ih _ hrest (removeOverlapsStep_pairwise hpw hstartd) ?_
    intro x hx r hr
    rcases mem_removeOverlapsStep hx with h | h
    · subst h; exact hd r hr
    · exact hstart x h r (List.mem_cons_of_mem d hr)

/-! ### Properties of the redaction engine -/

/-- A record with `text` and `type` present is processed without error and
records exactly its `RedactedItem`. -/
theorem redactStep_ok {options : RedactionOptions} {st : String × List RedactedItem}
    {d : DetRecord} (h1 : d.text.isSome) (h2 : d.type.isSome) :
    redactStep options st d = Except.ok
      (spliceStr st.1 (startD d) (endD d) (itemOf d options).replacement,
       st.2 ++ [itemOf d options]) := by
  cases htext : d.text with
  | none => rw [htext] at h1; exact absurd h1 (by simp)
  | some txt =>
    cases htype : d.type with
    | none => rw [htype] at h2; exact absurd h2 (by simp)
    | some ty =>
      unfold redactStep
      rw [htext, htype]
      rfl

/-- A record lacking `text` raises `KeyError` when it reaches the loop body. -/
theorem redactStep_missing_text {options : RedactionOptions}
    {st : String × List RedactedItem} {d : DetRecord} (h : d.text = none) :
    redactStep options st d = Except.error "KeyError: text" := by
  unfold redactStep
  rw [h]
  rfl

/-- A successful redaction loop records exactly one item per processed
record, in processing order. -/
theorem redactLoop_ok_items (options : RedactionOptions) :
    ∀ (L : List DetRecord) (st : String × List RedactedItem)
      (rt : String) (items : List RedactedItem),
      redactLoop options L st = Except.ok (rt, items) →
      items = st.2 ++ L.map (fun d => itemOf d options) := by
  intro L
  induction L with
  | nil =>
    intro st rt items h
    simp only [redactLoop, Except.ok.injEq] at h
    subst h
    simp
  | cons d rest ih =>
    intro st rt items h
    simp only [redactLoop] at h
    cases hstep : redactStep options st d with
    | error e => rw [hstep] at h; exact absurd h (by simp)
    | ok st' =>
      rw [hstep] at h
      have hitems := ih st' rt items h
      have hst' : st'.2 = st.2 ++ [itemOf d options] := by
        unfold redactStep at hstep
        by_cases hc1 : d.text.isNone
        · rw [if_pos hc1] at hstep; exact absurd hstep (by simp)
        · rw [if_neg hc1] at hstep
          by_cases hc2 : d.type.isNone
          · rw [if_pos hc2] at hstep; exact absurd hstep (by simp)
          · rw [if_neg hc2] at hstep
            rw [← Except.ok.inj hstep]
      rw [hitems, hst']
      simp

/-- The redaction loop succeeds on a list of records that all carry `text`
and `type`. -/
theorem redactLoop_ok_of_wf (options : RedactionOptions) :
    ∀ (L : List DetRecord) (st : String × List RedactedItem),
      (∀ d ∈ L, d.text.isSome ∧ d.type.isSome) →
      ∃ rt items, redactLoop options L st = Except.ok (rt, items) := by
  intro L
  induction L with
  | nil => intro st _; exact ⟨st.1, st.2, rfl⟩
  | cons d rest ih =>
    intro st hwf
    have hd := hwf d (List.mem_cons_self d rest)
    have hstep := @redactStep_ok options st d hd.1 hd.2
    obtain ⟨rt, items, hok⟩ :=
      ih (spliceStr st.1 (startD d) (endD d) (itemOf d options).replacement,
          st.2 ++ [itemOf d options])
        (fun d' hd' => hwf d' (List.mem_cons_of_mem d hd'))
    refine ⟨rt, items, ?_⟩
    simp only [redactLoop, hstep]
    exact hok

/-- The items of a successful `redactCore` run are exactly the items of the
filtered, descending-sorted records. -/
theorem redactCore_ok_items {text : String} {ds : List DetRecord}
    {opts : RedactionOptions} {rt : String} {items : List RedactedItem}
    (h : redactCore text ds opts = Except.ok (rt, items)) :
    items = (sortDescByStart
        (ds.filter (fun d => decide (confD d ≥ opts.confidence_threshold)))).map
      (fun d => itemOf d opts) := by
  unfold redactCore at h
  have hh := redactLoop_ok_items opts _ _ _ _ h
  simpa using hh

/-- `redactCore` succeeds whenever every record passing the confidence
filter carries `text` and `type`. -/
theorem redactCore_ok_of_wf {text : String} {ds : List DetRecord}
    {opts : RedactionOptions}
    (hwf : ∀ d ∈ ds, opts.confidence_threshold ≤ confD d →
      d.text.isSome ∧ d.type.isSome) :
    ∃ rt items, redactCore text ds opts = Except.ok (rt, items) := by
  unfold redactCore
  apply redactLoop_ok_of_wf
  intro d hd
  have hd' : d ∈ ds.filter (fun d => decide (confD d ≥ opts.confidence_threshold)) := by
    unfold sortDescByStart at hd
    exact (List.mem_insertionSort geStart).1 hd
  have hmem := List.mem_filter.1 hd'
  exact hwf d hmem.1 (by simpa using hmem.2)

/-- A successful `apply_redactions` call is the assembly of a successful
core run. -/
theorem apply_redactions_ok_elim {now text : String} {ds : List DetRecord}
    {opts : RedactionOptions} {r : RedactionResult}
    (h : apply_redactions now text ds (some opts) = Except.ok r) :
    ∃ st, redactCore text ds opts = Except.ok st ∧
      r = assembleResult now text opts st := by
  have h' : (redactCore text ds opts).map (assembleResult now text opts) =
      Except.ok r := h
  cases hc : redactCore text ds opts with
  | error e =>
    rw [hc] at h'
    exact absurd h' (by simp [Except.map])
  | ok st =>
    rw [hc] at h'
    simp only [Except.map, Except.ok.injEq] at h'
    exact ⟨st, rfl, h'.symm⟩

/-- Replacement length under `preserve_length` for any non-`labels` style:
a single replacement character repeated to the original's length. -/
theorem generate_replacement_length (original_text pii_type : String)
    {opts : RedactionOptions} (hpl : opts.preserve_length = true)
    (hst : opts.style ≠ "labels") :
    (generate_replacement original_text pii_type opts).length =
      original_text.length := by
  simp only [generate_replacement]
  rw [if_neg hst, if_pos hpl]
  show (List.replicate original_text.length (redaction_char opts.style)).length =
    original_text.length
  exact List.length_replicate _ _

/-! ### Claim theorems -/

/-- C1: for every behaviour of the regex engine and every input text, the
detection list returned by `detect_pii` contains no two detections with
overlapping `[start, end)` ranges: any two entries `d1`, `d2` of the final
list satisfy `d1.end_ ≤ d2.start ∨ d2.end_ ≤ d1.start`. -/
theorem C1_detect_nonoverlap (finditer : String → String → List (Nat × Nat))
    (text : String) :
    ((detect_pii finditer text).detections).Pairwise NonOverlap :=
  remove_overlaps_pairwise (rawDetections finditer text)

/-- C2: the implementation's overlap resolution is exactly the spec's greedy
single pass over raw detections sorted ascending by start: a candidate
overlapping one accepted detection with strictly higher confidence evicts it
and is accepted, an overlapping candidate whose confidence is not strictly
higher (ties included) is discarded, and a non-overlapping candidate is
accepted outright. -/
theorem C2_remove_overlaps_follows_spec (detections : List Detection) :
    remove_overlaps detections = remove_overlaps_spec detections := by
  unfold remove_overlaps remove_overlaps_spec
  refine foldl_step_eq_spec _ []
    (List.sorted_insertionSort leStart detections) List.Pairwise.nil ?_
  intro x hx
  simp at hx

/-- C3: for a call with `options.confidence_threshold = t` on records that
carry their keys, an input detection's item appears in `redacted_items` iff
its confidence is at least `t`; records below the threshold are excluded
entirely. -/
theorem C3_confidence_filter_correct (now text : String) (ds : List DetRecord)
    (opts : RedactionOptions) (d : DetRecord)
    (hwf : ∀ x ∈ ds, x.text.isSome ∧ x.type.isSome) (hd : d ∈ ds) :
    ∃ r, apply_redactions now text ds (some opts) = Except.ok r ∧
      (itemOf d opts ∈ r.redacted_items ↔
        opts.confidence_threshold ≤ confD d) := by
  obtain ⟨rt, items, hok⟩ :=
    @redactCore_ok_of_wf text ds opts (fun x hx _ => hwf x hx)
  refine ⟨assembleResult now text opts (rt, items), ?_, ?_⟩
  · show (redactCore text ds opts).map (assembleResult now text opts) = _
    rw [hok]
    rfl
  · have hitems := redactCore_ok_items hok
    show itemOf d opts ∈ items ↔ _
    rw [hitems]
    constructor
    · intro hmem
      obtain ⟨d', hd', heq⟩ := List.mem_map.1 hmem
      have hd'f : d' ∈ ds.filter
          (fun x => decide (confD x ≥ opts.confidence_threshold)) := by
        unfold sortDescByStart at hd'
        exact (List.mem_insertionSort geStart).1 hd'
      have hpass := (List.mem_filter.1 hd'f).2
      have hconf : confD d' = confD d := by
        have hc := congrArg RedactedItem.confidence heq
        simpa [itemOf] using hc
      rw [← hconf]
      simpa using hpass
    · intro hpass
      refine List.mem_map.2 ⟨d, ?_, rfl⟩
      unfold sortDescByStart
      exact (List.mem_insertionSort geStart).2
        (List.mem_filter.2 ⟨hd, by simpa using hpass⟩)

/-- Witness for C3: a concrete call with one well-formed record at the
default threshold 0; its item is in `redacted_items` iff `0 ≤ 1/2`. -/
theorem C3_witness :
    ∃ r, apply_redactions "2024-01-01T00:00:00" "hi ab"
        [⟨some "ab", some "name", some (mkRat 1 2), some 3, some 5⟩]
        (some defaultOptions) = Except.ok r ∧
      (itemOf ⟨some "ab", some "name", some (mkRat 1 2), some 3, some 5⟩
          defaultOptions ∈ r.redacted_items ↔
        defaultOptions.confidence_threshold ≤
          confD ⟨some "ab", some "name", some (mkRat 1 2), some 3, some 5⟩) :=
  C3_confidence_filter_correct "2024-01-01T00:00:00" "hi ab" _ defaultOptions _
    (by decide) (by decide)

/-- C4 counterexample: a `redact` call with `preserve_length = true` and
style `labels` produces one redacted item whose replacement is 14
characters long while its original text is 11 characters long. -/
theorem C4_cex :
    (apply_redactions "2024-01-01T00:00:01" "SSN: 123-45-6789"
        [⟨some "123-45-6789", some "ssn", some (mkRat 98 100), some 5, some 16⟩]
        (some ⟨"labels", true, 0⟩)).map
        (fun r => r.redacted_items.map
          (fun it => (it.replacement, it.replacement.length,
            it.original_text.length)))
      = Except.ok [("[SSN_REDACTED]", 14, 11)] := by decide

/-- C4 amended: when `preserve_length = true` and the style is not
`labels`, every redacted item satisfies
`len(replacement) = len(original_text)` (the `labels` style returns the
fixed type label regardless of `preserve_length`). -/
theorem C4_length_preservation_amended (now text : String)
    (ds : List DetRecord) (opts : RedactionOptions) (r : RedactionResult)
    (hpl : opts.preserve_length = true) (hst : opts.style ≠ "labels")
    (hok : apply_redactions now text ds (some opts) = Except.ok r) :
    ∀ it ∈ r.redacted_items,
      it.replacement.length = it.original_text.length := by
  obtain ⟨st, hcore, hr⟩ := apply_redactions_ok_elim hok
  obtain ⟨rt, items⟩ := st
  have hitems := redactCore_ok_items hcore
  intro it hit
  rw [hr] at hit
  have hit' : it ∈ items := hit
  rw [hitems] at hit'
  obtain ⟨d', -, heq⟩ := List.mem_map.1 hit'
  rw [← heq]
  exact generate_replacement_length _ _ hpl hst

/-- The record used by the C4 witness. -/
def c4WitnessRecord : DetRecord :=
  ⟨some "ab", some "name", some (mkRat 1 2), some 0, some 2⟩

/-- The options used by the C4 witness. -/
def c4WitnessOptions : RedactionOptions := ⟨"black_bars", true, 0⟩

/-- The concrete result of the C4 witness call. -/
def c4WitnessResult : RedactionResult :=
  { redacted_text := "██"
    redacted_items := [⟨"ab", "name", mkRat 1 2, 0, 2, "██"⟩]
    audit_trail :=
      { timestamp := "2024-01-01T00:00:01"
        redaction_options := c4WitnessOptions
        original_length := 2
        redacted_length := 2
        redacted_items := [⟨"ab", "name", mkRat 1 2, 0, 2, "██"⟩]
        summary := ⟨1, [("name", 1)], ⟨0, 1, 0⟩⟩ }
    summary := ⟨1, [("name", 1)]⟩ }

/-- Witness for C4 (amended): the single item of a concrete black-bars call
preserves the original's length. -/
theorem C4_witness :
    (⟨"ab", "name", mkRat 1 2, 0, 2, "██"⟩ : RedactedItem).replacement.length =
      (⟨"ab", "name", mkRat 1 2, 0, 2, "██"⟩ : RedactedItem).original_text.length :=
  C4_length_preservation_amended "2024-01-01T00:00:01" "ab" [c4WitnessRecord]
    c4WitnessOptions c4WitnessResult rfl (by decide) (by decide)
    ⟨"ab", "name", mkRat 1 2, 0, 2, "██"⟩ (by decide)

/-- C5: at a record lacking the `end` key the code uses `len(text)` as the
end offset, not `start + len(text)`: for `text="ab"`, `start=5` it records
end offset `2` (and the splice duplicates part of the document), while the
claim prescribes `7`. -/
theorem C5_end_default_divergence :
    endD ⟨some "ab", some "name", some 1, some 5, none⟩ = 2 ∧
    (2 : Nat) ≠ 5 + ("ab" : String).length ∧
    (apply_redactions "2024-01-01T00:00:02" "hello ab!"
        [⟨some "ab", some "name", some 1, some 5, none⟩] none).map
        (fun r => (r.redacted_text,
          r.redacted_items.map (fun it => (it.pos_start, it.pos_end))))
      = Except.ok ("hello██llo ab!", [(5, 2)]) :=
  ⟨rfl, by decide, by decide⟩

/-- C6 counterexample: a record with no keys at all passes the default
confidence filter (`0 >= 0`) and the loop body's `detection['text']` access
raises `KeyError`, which propagates out of `apply_redactions`. -/
theorem C6_cex :
    apply_redactions "2024-01-01T00:00:03" "x"
        [⟨none, none, none, none, none⟩] none =
      Except.error "KeyError: text" := by decide

/-- C6 amended: a malformed record is non-fatal precisely when the
confidence filter excludes it: whenever every record that passes the filter
carries `text` and `type`, the call returns a result (in particular a
malformed record whose defaulted confidence 0 is below a positive threshold
is silently skipped). -/
theorem C6_malformed_skipped_amended (now text : String) (ds : List DetRecord)
    (opts : RedactionOptions)
    (h : ∀ d ∈ ds, opts.confidence_threshold ≤ confD d →
      d.text.isSome ∧ d.type.isSome) :
    ∃ r, apply_redactions now text ds (some opts) = Except.ok r := by
  obtain ⟨rt, items, hok⟩ := redactCore_ok_of_wf h
  refine ⟨assembleResult now text opts (rt, items), ?_⟩
  show (redactCore text ds opts).map (assembleResult now text opts) = _
  rw [hok]
  rfl

/-- Witness for C6 (amended): a keyless record under threshold 1/2 is
skipped and the call succeeds. -/
theorem C6_witness :
    ∃ r, apply_redactions "2024-01-01T00:00:04" "abc"
        [⟨none, none, none, none, none⟩]
        (some ⟨"black_bars", true, mkRat 1 2⟩) = Except.ok r :=
  C6_malformed_skipped_amended "2024-01-01T00:00:04" "abc" _ _ (by decide)

/-- C7: if no detection passes the confidence filter, the redacted text
equals the input text and `redacted_items` is empty, while the audit trail
is still produced with zero counts. -/
theorem C7_noop_redaction (now text : String) (ds : List DetRecord)
    (opts : RedactionOptions)
    (h : ∀ d ∈ ds, ¬ opts.confidence_threshold ≤ confD d) :
    apply_redactions now text ds (some opts) = Except.ok
      { redacted_text := text
        redacted_items := []
        audit_trail :=
          { timestamp := now
            redaction_options := opts
            original_length := text.length
            redacted_length := text.length
            redacted_items := []
            summary := ⟨0, [], ⟨0, 0, 0⟩⟩ }
        summary := ⟨0, []⟩ } := by
  have hfil : ds.filter
      (fun d => decide (confD d ≥ opts.confidence_threshold)) = [] := by
    rw [List.filter_eq_nil_iff]
    intro d hd
    simpa using h d hd
  show (redactCore text ds opts).map (assembleResult now text opts) = _
  simp only [redactCore, hfil]
  rfl

/-- Witness for C7: one low-confidence record under threshold 9/10 leaves
the text unchanged with a zero-count audit trail. -/
theorem C7_witness :
    apply_redactions "2024-01-01T00:00:05" "hi"
        [⟨some "hi", some "name", some (mkRat 1 2), some 0, some 2⟩]
        (some ⟨"black_bars", true, mkRat 9 10⟩) = Except.ok
      { redacted_text := "hi"
        redacted_items := []
        audit_trail :=
          { timestamp := "2024-01-01T00:00:05"
            redaction_options := ⟨"black_bars", true, mkRat 9 10⟩
            original_length := 2
            redacted_length := 2
            redacted_items := []
            summary := ⟨0, [], ⟨0, 0, 0⟩⟩ }
        summary := ⟨0, []⟩ } :=
  C7_noop_redaction "2024-01-01T00:00:05" "hi" _ _ (by decide)

/-- C8 counterexample: two `redact` calls with identical text, detections
and options made at different times produce different full outputs: the
audit-trail timestamps differ. -/
theorem C8_cex :
    apply_redactions "2024-01-01T00:00:06" "x" [] none ≠
      apply_redactions "2024-01-01T00:00:07" "x" [] none := by decide

/-- Erase the only time-dependent output field. -/
def stripTimestamp (r : RedactionResult) : RedactionResult :=
  { r with audit_trail := { r.audit_trail with timestamp := "" } }

/-- C8 amended: `redact` is deterministic in everything except the
audit-trail timestamp: calls at different times agree on `redacted_text`,
`redacted_items`, `summary` and every other audit-trail field (and
`detect_pii` is a pure function of the text and the regex engine). -/
theorem C8_determinism_mod_timestamp (now1 now2 text : String)
    (ds : List DetRecord) (o : Option RedactionOptions) :
    (apply_redactions now1 text ds o).map stripTimestamp =
      (apply_redactions now2 text ds o).map stripTimestamp := by
  simp only [apply_redactions]
  cases redactCore text ds (o.getD defaultOptions) <;> rfl

/-- Validity of a regex engine: every reported span is nonempty and within
the text. Python `re` guarantees this for the catalog's patterns, none of
which can match the empty string. -/
def ValidMatcher (finditer : String → String → List (Nat × Nat)) : Prop :=
  ∀ pattern text, ∀ m ∈ finditer pattern text,
    m.1 < m.2 ∧ m.2 ≤ text.length

/-- C9: for a valid regex engine, every detection returned by `detect_pii`
satisfies `text[start:end] == text field` and `0 ≤ start < end ≤ len(text)`. -/
theorem C9_positional_fidelity (finditer : String → String → List (Nat × Nat))
    (hval : ValidMatcher finditer) (text : String) (d : Detection)
    (hd : d ∈ (detect_pii finditer text).detections) :
    strSlice text d.start d.end_ = d.text ∧
      d.start < d.end_ ∧ d.end_ ≤ text.length := by
  have hd' : d ∈ remove_overlaps (rawDetections finditer text) := hd
  have hraw : d ∈ rawDetections finditer text := mem_remove_overlaps hd'
  unfold rawDetections at hraw
  rw [List.mem_flatMap] at hraw
  obtain ⟨config, hcfg, hmem⟩ := hraw
  rw [List.mem_map] at hmem
  obtain ⟨m, hm, heq⟩ := hmem
  obtain ⟨h1, h2⟩ := hval config.pattern text m hm
  rw [← heq]
  exact ⟨rfl, h1, h2⟩

/-- A tiny concrete regex engine for the C9 witness: one span `[0, 1)` on
any nonempty text. -/
def witnessMatcher : String → String → List (Nat × Nat) :=
  fun _ text => if 1 ≤ text.length then [(0, 1)] else []

/-- The witness engine is valid. -/
theorem witnessMatcher_valid : ValidMatcher witnessMatcher := by
  intro pattern text m hm
  unfold witnessMatcher at hm
  by_cases h : 1 ≤ text.length
  · rw [if_pos h] at hm
    rw [List.mem_singleton] at hm
    subst hm
    exact ⟨Nat.zero_lt_one, h⟩
  · rw [if_neg h] at hm
    exact absurd hm (List.not_mem_nil m)

/-- Witness for C9: on text `"ab"` the surviving detection (the
highest-confidence `ssn` candidate) has faithful slice and bounds. -/
theorem C9_witness :
    strSlice "ab" 0 1 = "a" ∧ 0 < 1 ∧ 1 ≤ ("ab" : String).length :=
  C9_positional_fidelity witnessMatcher witnessMatcher_valid "ab"
    ⟨"a", "ssn", mkRat 98 100, 0, 1⟩ (by decide)

/-- C10: a style string that is none of `black_bars`, `asterisks`, `labels`
still yields a replacement: the black-bar character repeated to the
original's length when `preserve_length`, else the fixed `[REDACTED]`. -/
theorem C10_unknown_style (original_text pii_type : String)
    (options : RedactionOptions)
    (h1 : options.style ≠ "black_bars") (h2 : options.style ≠ "asterisks")
    (h3 : options.style ≠ "labels") :
    generate_replacement original_text pii_type options =
      if options.preserve_length then
        String.mk (List.replicate original_text.length '█')
      else "[REDACTED]" := by
  simp only [generate_replacement, redaction_char]
  rw [if_neg h3]
  by_cases hp : options.preserve_length = true
  · rw [if_pos hp, if_pos hp, if_neg h1, if_neg h2]
  · rw [if_neg hp, if_neg hp, if_neg h1, if_neg h2]

/-- Witness for C10: the unknown style `"weird"` with
`preserve_length = true`. -/
theorem C10_witness :
    generate_replacement "ab" "ssn" ⟨"weird", true, 0⟩ =
      if (⟨"weird", true, 0⟩ : RedactionOptions).preserve_length then
        String.mk (List.replicate ("ab" : String).length '█')
      else "[REDACTED]" :=
  C10_unknown_style "ab" "ssn" ⟨"weird", true, 0⟩
    (by decide) (by decide) (by decide)

end Redactable
